import Mathlib

/-!
Shallow embedding of the Yahtzee scoring rules (src/src/Rules.js).

A dice hand is modelled as a list of integers; JavaScript numbers used here
are integer-valued throughout.  The abstract class `Rule` contributes three
helpers (`sum`, `freq`, `count`); each concrete rule class contributes an
`evalRoll` function parameterised by the properties bound at construction
time (`val`, `count`, or `score`).  The thirteen exported rule constants are
modelled as the corresponding specialised functions.

JavaScript `Array.prototype.reduce` without an initial value throws on an
empty array, so `Rule.sum` is embedded as an `Option`-valued function that
is `none` exactly on the empty hand; every other operation is total.
A JavaScript `Map` iterates its entries in key-insertion order, and a `Set`
stores distinct elements in insertion order; both are embedded through
`jsSet`, the list of distinct values of a hand in order of first occurrence.
-/

namespace YahtzeeRules

/-- A dice hand: the list of face values passed to `evalRoll`. -/
abbrev Hand := List Int

/-- A valid hand per the spec: exactly 5 integers, each between 1 and 6. -/
def ValidHand (dice : Hand) : Prop :=
  dice.length = 5 ∧ ∀ d ∈ dice, 1 ≤ d ∧ d ≤ 6

instance : DecidablePred ValidHand := fun dice => by
  unfold ValidHand; infer_instance

/-- Distinct values of a list in order of first occurrence.  This is the
key set of the JavaScript `Map` built by `Rule.freq` (insertion order) and
also the contents of `new Set(dice)`. -/
def jsSet : Hand → List Int
  | [] => []
  | d :: ds => d :: (jsSet ds).filter (fun x => decide (x ≠ d))

namespace Rule

/-- Embeds `dice.reduce((prev, curr) => prev + curr)`: a left fold whose
initial accumulator is the first element, throwing (`none`) on `[]`. -/
def sum : Hand → Option Int
  | [] => none
  | d :: ds => some (ds.foldl (· + ·) d)

/-- Embeds `freqs.get(d) || 0` on an association-list model of the `Map`:
the value of the first entry with key `k`, or 0 when absent. -/
def mapGet (m : List (Int × Nat)) (k : Int) : Nat :=
  ((m.find? (fun q => q.1 == k)).map Prod.snd).getD 0

/-- Embeds `freqs.set(k, v)`: replace the entry for an existing key in
place, otherwise append a new entry. -/
def mapSet (m : List (Int × Nat)) (k : Int) (v : Nat) : List (Int × Nat) :=
  if m.any (fun q => q.1 == k) then
    m.map (fun q => if q.1 = k then (k, v) else q)
  else
    m ++ [(k, v)]

/-- Embeds the loop `for (let d of dice) freqs.set(d, (freqs.get(d) || 0) + 1)`
building the frequency `Map`. -/
def freqMap (dice : Hand) : List (Int × Nat) :=
  dice.foldl (fun m d => mapSet m d (mapGet m d + 1)) []

/-- Embeds `Rule.freq`: `Array.from(freqs.values())`, the frequency counts
in key-insertion order. -/
def freq (dice : Hand) : List Nat :=
  (freqMap dice).map Prod.snd

/-- Embeds `Rule.count`: `dice.filter(d => d === val).length`. -/
def count (dice : Hand) (val : Int) : Nat :=
  (dice.filter (fun d => decide (d = val))).length

end Rule

namespace TotalOneNumber

/-- Embeds `TotalOneNumber.evalRoll`: `this.val * this.count(dice, this.val)`,
with `val` the constructor-bound parameter. -/
def evalRoll (val : Int) (dice : Hand) : Int :=
  val * Rule.count dice val

end TotalOneNumber

namespace SumDistro

/-- Embeds `SumDistro.evalRoll`:
`this.freq(dice).some(c => c >= this.count) ? this.sum(dice) : 0`,
with `count` the constructor-bound threshold. -/
def evalRoll (count : Nat) (dice : Hand) : Option Int :=
  if (Rule.freq dice).any (fun c => decide (count ≤ c)) then Rule.sum dice
  else some 0

end SumDistro

namespace FullHouse

/-- Embeds `FullHouse.evalRoll`:
`freqs.includes(2) && freqs.includes(3) ? this.score : 0`. -/
def evalRoll (score : Int) (dice : Hand) : Int :=
  let freqs := Rule.freq dice
  if freqs.contains 2 && freqs.contains 3 then score else 0

end FullHouse

namespace SmallStraight

/-- Embeds `SmallStraight.evalRoll`: build `d = new Set(dice)` and award the
score when `d` has 2,3,4 and (1 or 5), or has 3,4,5 and (2 or 6). -/
def evalRoll (score : Int) (dice : Hand) : Int :=
  let d := jsSet dice
  if d.contains 2 && d.contains 3 && d.contains 4 && (d.contains 1 || d.contains 5) then
    score
  else if d.contains 3 && d.contains 4 && d.contains 5 && (d.contains 2 || d.contains 6) then
    score
  else 0

end SmallStraight

namespace LargeStraight

/-- Embeds `LargeStraight.evalRoll`:
`d.size === 5 && (!d.has(1) || !d.has(6)) ? this.score : 0`. -/
def evalRoll (score : Int) (dice : Hand) : Int :=
  let d := jsSet dice
  if d.length == 5 && (!(d.contains 1) || !(d.contains 6)) then score else 0

end LargeStraight

namespace Yahtzee

/-- Embeds `Yahtzee.evalRoll`: `this.freq(dice)[0] === 5 ? this.score : 0`.
Indexing past the end of the array yields `undefined`, and
`undefined === 5` is `false`; `headD 0` likewise makes the comparison fail
on an empty frequency list, since `0 ≠ 5`. -/
def evalRoll (score : Int) (dice : Hand) : Int :=
  if (Rule.freq dice).headD 0 == 5 then score else 0

end Yahtzee

/-- `const ones = new TotalOneNumber({ val: 1, ... })`. -/
def ones : Hand → Int := TotalOneNumber.evalRoll 1

/-- `const twos = new TotalOneNumber({ val: 2, ... })`. -/
def twos : Hand → Int := TotalOneNumber.evalRoll 2

/-- `const threes = new TotalOneNumber({ val: 3, ... })`. -/
def threes : Hand → Int := TotalOneNumber.evalRoll 3

/-- `const fours = new TotalOneNumber({ val: 4, ... })`. -/
def fours : Hand → Int := TotalOneNumber.evalRoll 4

/-- `const fives = new TotalOneNumber({ val: 5, ... })`. -/
def fives : Hand → Int := TotalOneNumber.evalRoll 5

/-- `const sixes = new TotalOneNumber({ val: 6, ... })`. -/
def sixes : Hand → Int := TotalOneNumber.evalRoll 6

/-- `const threeOfKind = new SumDistro({ count: 3, ... })`. -/
def threeOfKind : Hand → Option Int := SumDistro.evalRoll 3

/-- `const fourOfKind = new SumDistro({ count: 4, ... })`. -/
def fourOfKind : Hand → Option Int := SumDistro.evalRoll 4

/-- `const fullHouse = new FullHouse({ score: 25, ... })`. -/
def fullHouse : Hand → Int := FullHouse.evalRoll 25

/-- `const smallStraight = new SmallStraight({ score: 30, ... })`. -/
def smallStraight : Hand → Int := SmallStraight.evalRoll 30

/-- `const largeStraight = new LargeStraight({ score: 40, ... })`. -/
def largeStraight : Hand → Int := LargeStraight.evalRoll 40

/-- `const yahtzee = new Yahtzee({ score: 50, ... })`. -/
def yahtzee : Hand → Int := Yahtzee.evalRoll 50

/-- `const chance = new SumDistro({ count: 0, ... })`. -/
def chance : Hand → Option Int := SumDistro.evalRoll 0

/-- Lifts an infallible rule into the common evaluation type, so that all
thirteen exported rule constants can be listed together. -/
def asRule (f : Hand → Int) : Hand → Option Int :=
  fun dice => some (f dice)

/-- The exported rule catalog, in the order of the `export` statement. -/
def catalog : List (Hand → Option Int) :=
  [asRule ones, asRule twos, asRule threes, asRule fours, asRule fives,
   asRule sixes, threeOfKind, fourOfKind, asRule fullHouse,
   asRule smallStraight, asRule largeStraight, asRule yahtzee, chance]

end YahtzeeRules

namespace YahtzeeRules

/-! Properties of `jsSet`, the insertion-ordered distinct values. -/

theorem jsSet_mem {x : Int} : ∀ {l : Hand}, x ∈ jsSet l ↔ x ∈ l
  | [] => Iff.rfl
  | d :: ds => by
    simp only [jsSet, List.mem_cons, List.mem_filter, decide_eq_true_eq]
    rcases em (x = d) with h | h
    · simp [h]
    · simp [h, jsSet_mem (l := ds)]

theorem jsSet_nodup : ∀ l : Hand, (jsSet l).Nodup
  | [] => List.nodup_nil
  | d :: ds => by
    refine List.nodup_cons.2 ⟨fun hmem => ?_, List.Nodup.filter _ (jsSet_nodup ds)⟩
    have := (List.mem_filter.1 hmem).2
    simp at this

theorem jsSet_append_of_not_mem {d : Int} :
    ∀ {p : Hand}, d ∉ p → jsSet (p ++ [d]) = jsSet p ++ [d]
  | [], _ => rfl
  | a :: p, h => by
    have hd : d ∉ p := fun hc => h (List.mem_cons_of_mem a hc)
    have had : d ≠ a := fun hc => h (hc ▸ List.mem_cons_self a p)
    rw [List.cons_append, jsSet, jsSet, jsSet_append_of_not_mem hd,
      List.filter_append]
    simp [had]

theorem jsSet_append_of_mem {d : Int} :
    ∀ {p : Hand}, d ∈ p → jsSet (p ++ [d]) = jsSet p
  | a :: p, h => by
    rcases em (d ∈ p) with hp | hp
    · rw [List.cons_append, jsSet, jsSet, jsSet_append_of_mem hp]
    · have hda : d = a := by
        rcases List.mem_cons.1 h with h' | h'
        · exact h'
        · exact absurd h' hp
      subst hda
      rw [List.cons_append, jsSet, jsSet, jsSet_append_of_not_mem hp,
        List.filter_append]
      simp

theorem jsSet_perm {l₁ l₂ : Hand} (h : l₁.Perm l₂) : (jsSet l₁).Perm (jsSet l₂) :=
  (List.perm_ext_iff_of_nodup (jsSet_nodup l₁) (jsSet_nodup l₂)).2 fun a => by
    rw [jsSet_mem, jsSet_mem, h.mem_iff]

theorem jsSet_toFinset (l : Hand) : (jsSet l).toFinset = l.toFinset := by
  apply Finset.ext
  intro a
  rw [List.mem_toFinset, List.mem_toFinset, jsSet_mem]

theorem jsSet_length (l : Hand) : (jsSet l).length = l.toFinset.card := by
  rw [← jsSet_toFinset, List.toFinset_card_of_nodup (jsSet_nodup l)]

/-! `Rule.count` agrees with `List.count`, and `Rule.sum` with `List.sum`. -/

theorem Rule.count_eq (dice : Hand) (v : Int) : Rule.count dice v = dice.count v := by
  rw [Rule.count, List.count_eq_countP, List.countP_eq_length_filter]
  have hpred : (fun d : Int => decide (d = v)) = fun x : Int => x == v := by
    funext x
    rw [beq_eq_decide]
    exact decide_eq_decide.2 Iff.rfl
  rw [hpred]

theorem foldl_add_eq : ∀ (ds : List Int) (a : Int), ds.foldl (· + ·) a = a + ds.sum
  | [], a => by simp
  | d :: ds, a => by
    rw [List.foldl_cons, foldl_add_eq ds (a + d), List.sum_cons]
    ring

theorem Rule.sum_eq : ∀ {dice : Hand}, dice ≠ [] → Rule.sum dice = some dice.sum
  | [], h => absurd rfl h
  | d :: ds, _ => by
    rw [Rule.sum, foldl_add_eq, List.sum_cons]

theorem sum_nonneg_of_valid {dice : Hand} (hv : ValidHand dice) : 0 ≤ dice.sum :=
  List.sum_nonneg fun d hd => le_trans zero_le_one (hv.2 d hd).1

end YahtzeeRules

namespace YahtzeeRules

/-! The frequency `Map` built by the fold carries, in insertion order, one
entry per distinct value, holding that value's multiplicity. -/

theorem Rule.mapGet_map (keys : List Int) (f : Int → Nat) (d : Int) :
    Rule.mapGet (keys.map (fun v => (v, f v))) d = if d ∈ keys then f d else 0 := by
  induction keys with
  | nil => rfl
  | cons k ks ih =>
    rw [List.map_cons]
    rcases em (k = d) with h | h
    · subst h
      rw [Rule.mapGet, List.find?_cons_of_pos _ (by simp)]
      simp
    · rw [Rule.mapGet, List.find?_cons_of_neg _ (by simp [h]), ← Rule.mapGet, ih]
      have hmem : d ∈ k :: ks ↔ d ∈ ks := by
        simp only [List.mem_cons, or_iff_right_iff_imp]
        intro hc
        exact absurd hc.symm h
      rw [if_congr hmem rfl rfl]

theorem Rule.mapStep_eq (p : Hand) (d : Int) :
    Rule.mapSet ((jsSet p).map (fun v => (v, p.count v))) d
      (Rule.mapGet ((jsSet p).map (fun v => (v, p.count v))) d + 1)
      = (jsSet (p ++ [d])).map (fun v => (v, (p ++ [d]).count v)) := by
  have hget : Rule.mapGet ((jsSet p).map (fun v => (v, p.count v))) d = p.count d := by
    rw [Rule.mapGet_map]
    rcases em (d ∈ p) with h | h
    · rw [if_pos (jsSet_mem.2 h)]
    · rw [if_neg (fun hc => h (jsSet_mem.1 hc)), List.count_eq_zero.2 h]
  rw [hget]
  rcases em (d ∈ p) with h | h
  · have hcond : (((jsSet p).map fun v => (v, p.count v)).any fun q => q.1 == d) = true := by
      refine List.any_eq_true.2 ⟨(d, p.count d), List.mem_map.2 ⟨d, jsSet_mem.2 h, rfl⟩, ?_⟩
      simp
    rw [Rule.mapSet, if_pos hcond, jsSet_append_of_mem h, List.map_map]
    apply List.map_congr_left
    intro v hv
    rcases em (v = d) with hvd | hvd
    · subst hvd
      simp [List.count_append]
    · have hdv : ¬(d = v) := fun hc => hvd hc.symm
      simp [Function.comp, hvd, List.count_append, List.count_singleton, hdv]
  · have hcond : (((jsSet p).map fun v => (v, p.count v)).any fun q => q.1 == d) = false := by
      refine List.any_eq_false.2 ?_
      intro q hq
      obtain ⟨w, hw, rfl⟩ := List.mem_map.1 hq
      have hwp : w ∈ p := jsSet_mem.1 hw
      simp only [beq_eq_decide, decide_eq_true_eq]
      exact fun hc => h (hc ▸ hwp)
    rw [Rule.mapSet, if_neg (by rw [hcond]; exact Bool.false_ne_true),
      jsSet_append_of_not_mem h, List.map_append]
    congr 1
    · apply List.map_congr_left
      intro v hv
      have hvd : ¬(d = v) := fun hc => h (hc ▸ jsSet_mem.1 hv)
      simp [List.count_append, List.count_singleton, hvd]
    · simp [List.count_append, List.count_eq_zero.2 h]

theorem Rule.freqMap_aux : ∀ (ds p : Hand),
    ds.foldl (fun m d => Rule.mapSet m d (Rule.mapGet m d + 1))
      ((jsSet p).map (fun v => (v, p.count v)))
      = (jsSet (p ++ ds)).map (fun v => (v, (p ++ ds).count v))
  | [], p => by simp
  | d :: ds, p => by
    rw [List.foldl_cons, Rule.mapStep_eq, Rule.freqMap_aux ds (p ++ [d]),
      List.append_assoc, List.singleton_append]

theorem Rule.freqMap_eq (dice : Hand) :
    Rule.freqMap dice = (jsSet dice).map (fun v => (v, dice.count v)) := by
  have h := Rule.freqMap_aux dice []
  simpa [Rule.freqMap] using h

theorem Rule.freq_eq (dice : Hand) :
    Rule.freq dice = (jsSet dice).map (fun v => dice.count v) := by
  rw [Rule.freq, Rule.freqMap_eq, List.map_map]
  rfl

theorem mem_freq {c : Nat} {dice : Hand} :
    c ∈ Rule.freq dice ↔ ∃ v ∈ dice, dice.count v = c := by
  rw [Rule.freq_eq]
  constructor
  · intro h
    obtain ⟨v, hv, rfl⟩ := List.mem_map.1 h
    exact ⟨v, jsSet_mem.1 hv, rfl⟩
  · rintro ⟨v, hv, rfl⟩
    exact List.mem_map.2 ⟨v, jsSet_mem.2 hv, rfl⟩

theorem freq_any_iff (k : Nat) (dice : Hand) :
    ((Rule.freq dice).any fun c => decide (k ≤ c)) = true ↔
      ∃ v ∈ dice, k ≤ dice.count v := by
  rw [List.any_eq_true]
  constructor
  · rintro ⟨c, hc, hk⟩
    obtain ⟨v, hv, rfl⟩ := mem_freq.1 hc
    exact ⟨v, hv, of_decide_eq_true hk⟩
  · rintro ⟨v, hv, hk⟩
    exact ⟨dice.count v, mem_freq.2 ⟨v, hv, rfl⟩, decide_eq_true hk⟩

theorem freq_cons_headD (d : Int) (ds : List Int) :
    (Rule.freq (d :: ds)).headD 0 = (d :: ds).count d := by
  rw [Rule.freq_eq]
  rfl

theorem freq_perm {l₁ l₂ : Hand} (h : l₁.Perm l₂) :
    (Rule.freq l₁).Perm (Rule.freq l₂) := by
  rw [Rule.freq_eq, Rule.freq_eq]
  have h1 : (jsSet l₁).map (fun v => l₁.count v) = (jsSet l₁).map (fun v => l₂.count v) :=
    List.map_congr_left fun v _ => by rw [h.count_eq]
  rw [h1]
  exact (jsSet_perm h).map _

theorem perm_any_eq {α : Type} {l₁ l₂ : List α} (h : l₁.Perm l₂) (p : α → Bool) :
    l₁.any p = l₂.any p := by
  rw [Bool.eq_iff_iff, List.any_eq_true, List.any_eq_true]
  constructor <;> rintro ⟨x, hx, hpx⟩
  · exact ⟨x, h.mem_iff.1 hx, hpx⟩
  · exact ⟨x, h.mem_iff.2 hx, hpx⟩

end YahtzeeRules

namespace YahtzeeRules

/-! Per-strategy evaluation facts. -/

theorem totalOneNumber_count (v : Int) (dice : Hand) :
    TotalOneNumber.evalRoll v dice = v * dice.count v := by
  rw [TotalOneNumber.evalRoll, Rule.count_eq]

theorem totalOneNumber_nonneg {v : Int} (h : 0 ≤ v) (dice : Hand) :
    0 ≤ TotalOneNumber.evalRoll v dice :=
  mul_nonneg h (Int.natCast_nonneg _)

theorem totalOneNumber_perm (v : Int) {l₁ l₂ : Hand} (h : l₁.Perm l₂) :
    TotalOneNumber.evalRoll v l₁ = TotalOneNumber.evalRoll v l₂ := by
  rw [totalOneNumber_count, totalOneNumber_count, h.count_eq]

theorem sumDistro_eval {k : Nat} {dice : Hand} (hne : dice ≠ []) :
    SumDistro.evalRoll k dice =
      if ∃ v ∈ dice, k ≤ dice.count v then some dice.sum else some 0 := by
  rw [SumDistro.evalRoll]
  rcases em (∃ v ∈ dice, k ≤ dice.count v) with h | h
  · rw [if_pos ((freq_any_iff k dice).2 h), if_pos h, Rule.sum_eq hne]
  · rw [if_neg (fun hc => h ((freq_any_iff k dice).1 hc)), if_neg h]

theorem valid_ne_nil {dice : Hand} (hv : ValidHand dice) : dice ≠ [] := by
  intro hc
  rw [hc] at hv
  exact absurd hv.1 (by decide)

theorem sumDistro_total {k : Nat} {dice : Hand} (hv : ValidHand dice) :
    ∃ n : Int, SumDistro.evalRoll k dice = some n ∧ 0 ≤ n := by
  rw [sumDistro_eval (valid_ne_nil hv)]
  rcases em (∃ v ∈ dice, k ≤ dice.count v) with h | h
  · exact ⟨dice.sum, by rw [if_pos h], sum_nonneg_of_valid hv⟩
  · exact ⟨0, by rw [if_neg h], le_refl 0⟩

theorem sumDistro_perm (k : Nat) {l₁ l₂ : Hand} (h : l₁.Perm l₂) (hne : l₁ ≠ []) :
    SumDistro.evalRoll k l₁ = SumDistro.evalRoll k l₂ := by
  have hne₂ : l₂ ≠ [] := by
    intro hc
    rw [hc] at h
    exact hne h.eq_nil
  rw [sumDistro_eval hne, sumDistro_eval hne₂, h.sum_eq]
  have hiff : (∃ v ∈ l₁, k ≤ l₁.count v) ↔ ∃ v ∈ l₂, k ≤ l₂.count v := by
    constructor <;> rintro ⟨v, hvm, hk⟩
    · exact ⟨v, h.mem_iff.1 hvm, by rw [← h.count_eq]; exact hk⟩
    · exact ⟨v, h.mem_iff.2 hvm, by rw [h.count_eq]; exact hk⟩
  rw [if_congr hiff rfl rfl]

theorem fullHouse_eval (s : Int) (dice : Hand) :
    FullHouse.evalRoll s dice =
      if 2 ∈ Rule.freq dice ∧ 3 ∈ Rule.freq dice then s else 0 := by
  simp only [FullHouse.evalRoll]
  rcases em (2 ∈ Rule.freq dice ∧ 3 ∈ Rule.freq dice) with h | h
  · rw [if_pos (by simpa using h), if_pos h]
  · rw [if_neg (by simpa using h), if_neg h]

theorem smallStraight_eval (s : Int) (dice : Hand) :
    SmallStraight.evalRoll s dice =
      if (2:Int) ∈ dice ∧ (3:Int) ∈ dice ∧ (4:Int) ∈ dice ∧ ((1:Int) ∈ dice ∨ (5:Int) ∈ dice) then s
      else if (3:Int) ∈ dice ∧ (4:Int) ∈ dice ∧ (5:Int) ∈ dice ∧ ((2:Int) ∈ dice ∨ (6:Int) ∈ dice) then s
      else 0 := by
  simp only [SmallStraight.evalRoll]
  have h1 : ((jsSet dice).contains 2 && (jsSet dice).contains 3 && (jsSet dice).contains 4 &&
        ((jsSet dice).contains 1 || (jsSet dice).contains 5)) = true ↔
      (2:Int) ∈ dice ∧ (3:Int) ∈ dice ∧ (4:Int) ∈ dice ∧ ((1:Int) ∈ dice ∨ (5:Int) ∈ dice) := by
    simp [jsSet_mem, and_assoc]
  have h2 : ((jsSet dice).contains 3 && (jsSet dice).contains 4 && (jsSet dice).contains 5 &&
        ((jsSet dice).contains 2 || (jsSet dice).contains 6)) = true ↔
      (3:Int) ∈ dice ∧ (4:Int) ∈ dice ∧ (5:Int) ∈ dice ∧ ((2:Int) ∈ dice ∨ (6:Int) ∈ dice) := by
    simp [jsSet_mem, and_assoc]
  rw [if_congr h1 rfl (if_congr h2 rfl rfl)]

theorem largeStraight_eval (s : Int) (dice : Hand) :
    LargeStraight.evalRoll s dice =
      if dice.toFinset.card = 5 ∧ ((1:Int) ∉ dice ∨ (6:Int) ∉ dice) then s else 0 := by
  simp only [LargeStraight.evalRoll]
  have h1 : ((jsSet dice).length == 5 && (!(jsSet dice).contains 1 || !(jsSet dice).contains 6)) = true ↔
      dice.toFinset.card = 5 ∧ ((1:Int) ∉ dice ∨ (6:Int) ∉ dice) := by
    simp [jsSet_length, jsSet_mem]
  rw [if_congr h1 rfl rfl]

theorem yahtzee_eval (s : Int) (d : Int) (ds : List Int) :
    Yahtzee.evalRoll s (d :: ds) = if (d :: ds).count d = 5 then s else 0 := by
  rw [Yahtzee.evalRoll]
  have h1 : ((Rule.freq (d :: ds)).headD 0 == 5) = true ↔ (d :: ds).count d = 5 := by
    rw [freq_cons_headD]
    simp
  rw [if_congr h1 rfl rfl]

end YahtzeeRules

namespace YahtzeeRules

/-! Characterisations of the yahtzee and large-straight rules. -/

theorem yahtzee_replicate_iff {dice : Hand} (h5 : dice.length = 5) :
    yahtzee dice = 50 ↔ ∃ v : Int, dice = List.replicate 5 v := by
  cases dice with
  | nil => exact absurd h5 (by decide)
  | cons d ds =>
    rw [show yahtzee (d :: ds) = Yahtzee.evalRoll 50 (d :: ds) from rfl, yahtzee_eval]
    constructor
    · intro h
      have hc : (d :: ds).count d = 5 := by
        by_contra hc
        rw [if_neg hc] at h
        exact absurd h (by decide)
      refine ⟨d, List.eq_replicate_iff.2 ⟨h5, fun b hb => ?_⟩⟩
      have hall := List.count_eq_length.1 (by rw [hc, h5])
      exact (hall b hb).symm
    · rintro ⟨v, hrep⟩
      have hdv : d = v := List.eq_of_mem_replicate (hrep ▸ List.mem_cons_self d ds)
      subst hdv
      have hcnt : (d :: ds).count d = 5 := by
        rw [hrep, List.count_replicate_self]
      rw [if_pos hcnt]

theorem yahtzee_50_or_0 (dice : Hand) : yahtzee dice = 50 ∨ yahtzee dice = 0 := by
  simp only [yahtzee, Yahtzee.evalRoll]
  split
  · exact Or.inl rfl
  · exact Or.inr rfl

theorem jsSet_replicate (v : Int) : jsSet (List.replicate 5 v) = [v] := by
  simp [List.replicate, jsSet]

theorem freq_replicate (v : Int) : Rule.freq (List.replicate 5 v) = [5] := by
  rw [Rule.freq_eq, jsSet_replicate, List.map_cons, List.map_nil,
    List.count_replicate_self]

theorem yahtzee_freq_singleton_iff {dice : Hand} (h5 : dice.length = 5) :
    yahtzee dice = 50 ↔ Rule.freq dice = [5] := by
  constructor
  · intro h
    obtain ⟨v, rfl⟩ := (yahtzee_replicate_iff h5).1 h
    exact freq_replicate v
  · intro h
    cases dice with
    | nil => exact absurd h5 (by decide)
    | cons d ds =>
      rw [show yahtzee (d :: ds) = Yahtzee.evalRoll 50 (d :: ds) from rfl, yahtzee_eval,
        if_pos]
      have hd : (Rule.freq (d :: ds)).headD 0 = 5 := by rw [h]; rfl
      rw [← freq_cons_headD, hd]

theorem largeStraight_char {dice : Hand} (hv : ValidHand dice) :
    largeStraight dice = 40 ↔
      dice.toFinset = ({1, 2, 3, 4, 5} : Finset Int) ∨
      dice.toFinset = ({2, 3, 4, 5, 6} : Finset Int) := by
  rw [show largeStraight dice = LargeStraight.evalRoll 40 dice from rfl, largeStraight_eval]
  have hsub : dice.toFinset ⊆ ({1, 2, 3, 4, 5, 6} : Finset Int) := by
    intro a ha
    have hb := hv.2 a (List.mem_toFinset.1 ha)
    simp only [Finset.mem_insert, Finset.mem_singleton]
    omega
  constructor
  · intro h
    have hc : dice.toFinset.card = 5 ∧ ((1:Int) ∉ dice ∨ (6:Int) ∉ dice) := by
      by_contra hc
      rw [if_neg hc] at h
      exact absurd h (by decide)
    rcases hc.2 with h1 | h6
    · right
      apply Finset.eq_of_subset_of_card_le
      · intro a ha
        have hmem := hsub ha
        have hne : a ≠ 1 := fun hc1 => h1 (List.mem_toFinset.1 (hc1 ▸ ha))
        simp only [Finset.mem_insert, Finset.mem_singleton] at hmem ⊢
        omega
      · rw [hc.1]
        decide
    · left
      apply Finset.eq_of_subset_of_card_le
      · intro a ha
        have hmem := hsub ha
        have hne : a ≠ 6 := fun hc6 => h6 (List.mem_toFinset.1 (hc6 ▸ ha))
        simp only [Finset.mem_insert, Finset.mem_singleton] at hmem ⊢
        omega
      · rw [hc.1]
        decide
  · intro h
    rcases h with h | h
    · have hcond : dice.toFinset.card = 5 ∧ ((1:Int) ∉ dice ∨ (6:Int) ∉ dice) := by
        refine ⟨by rw [h]; decide, Or.inr fun hc => ?_⟩
        have h6 : (6:Int) ∈ dice.toFinset := List.mem_toFinset.2 hc
        rw [h] at h6
        exact absurd h6 (by decide)
      rw [if_pos hcond]
    · have hcond : dice.toFinset.card = 5 ∧ ((1:Int) ∉ dice ∨ (6:Int) ∉ dice) := by
        refine ⟨by rw [h]; decide, Or.inl fun hc => ?_⟩
        have h1 : (1:Int) ∈ dice.toFinset := List.mem_toFinset.2 hc
        rw [h] at h1
        exact absurd h1 (by decide)
      rw [if_pos hcond]

end YahtzeeRules

namespace YahtzeeRules

theorem totalOneNumber_absent {v : Int} {dice : Hand} (h : v ∉ dice) :
    TotalOneNumber.evalRoll v dice = 0 := by
  rw [totalOneNumber_count, List.count_eq_zero.2 h]
  simp

/-- C3: each per-face rule `ones` through `sixes`, bound to target value `v`,
scores `v × countOf(hand, v)` on every valid hand; when `v` does not appear
in the hand the score is 0 rather than an error. -/
theorem perFace_spec {dice : Hand} (hv : ValidHand dice) :
    (ones dice = 1 * dice.count 1 ∧ twos dice = 2 * dice.count 2 ∧
     threes dice = 3 * dice.count 3 ∧ fours dice = 4 * dice.count 4 ∧
     fives dice = 5 * dice.count 5 ∧ sixes dice = 6 * dice.count 6) ∧
    (((1:Int) ∉ dice → ones dice = 0) ∧ ((2:Int) ∉ dice → twos dice = 0) ∧
     ((3:Int) ∉ dice → threes dice = 0) ∧ ((4:Int) ∉ dice → fours dice = 0) ∧
     ((5:Int) ∉ dice → fives dice = 0) ∧ ((6:Int) ∉ dice → sixes dice = 0)) :=
  ⟨⟨totalOneNumber_count 1 dice, totalOneNumber_count 2 dice, totalOneNumber_count 3 dice,
    totalOneNumber_count 4 dice, totalOneNumber_count 5 dice, totalOneNumber_count 6 dice⟩,
   ⟨fun h => totalOneNumber_absent h, fun h => totalOneNumber_absent h,
    fun h => totalOneNumber_absent h, fun h => totalOneNumber_absent h,
    fun h => totalOneNumber_absent h, fun h => totalOneNumber_absent h⟩⟩

/-- C4: `threeOfKind` (k = 3) and `fourOfKind` (k = 4) each score the sum of
all five dice exactly when some face value appears at least k times, and 0
otherwise. -/
theorem threeFourOfKind_spec {dice : Hand} (hv : ValidHand dice) :
    ((∃ v ∈ dice, 3 ≤ dice.count v) → threeOfKind dice = some dice.sum) ∧
    (¬(∃ v ∈ dice, 3 ≤ dice.count v) → threeOfKind dice = some 0) ∧
    ((∃ v ∈ dice, 4 ≤ dice.count v) → fourOfKind dice = some dice.sum) ∧
    (¬(∃ v ∈ dice, 4 ≤ dice.count v) → fourOfKind dice = some 0) := by
  have hne := valid_ne_nil hv
  refine ⟨fun h => ?_, fun h => ?_, fun h => ?_, fun h => ?_⟩
  · simp only [threeOfKind]
    rw [sumDistro_eval hne, if_pos h]
  · simp only [threeOfKind]
    rw [sumDistro_eval hne, if_neg h]
  · simp only [fourOfKind]
    rw [sumDistro_eval hne, if_pos h]
  · simp only [fourOfKind]
    rw [sumDistro_eval hne, if_neg h]

/-- C5: the `chance` rule (`SumDistro` with k = 0) always scores the full
sum of the hand. -/
theorem chance_spec {dice : Hand} (hv : ValidHand dice) :
    chance dice = some dice.sum := by
  obtain ⟨d, ds, rfl⟩ : ∃ d ds, dice = d :: ds := by
    cases dice with
    | nil => exact absurd rfl (valid_ne_nil hv)
    | cons d ds => exact ⟨d, ds, rfl⟩
  simp only [chance]
  rw [sumDistro_eval (valid_ne_nil hv), if_pos ⟨d, List.mem_cons_self d ds, Nat.zero_le _⟩]

/-- C6: `fullHouse` scores 25 exactly when some face value occurs exactly
twice and some face value occurs exactly three times, and 0 otherwise; in
particular the four-of-a-kind hand [1,1,1,1,2] scores 0. -/
theorem fullHouse_spec {dice : Hand} (hv : ValidHand dice) :
    (fullHouse dice = 25 ↔
      (∃ v ∈ dice, dice.count v = 2) ∧ (∃ w ∈ dice, dice.count w = 3)) ∧
    (fullHouse dice = 25 ∨ fullHouse dice = 0) ∧
    fullHouse [1, 1, 1, 1, 2] = 0 := by
  have he := fullHouse_eval 25 dice
  refine ⟨?_, ?_, by decide⟩
  · simp only [fullHouse]
    rw [he]
    rcases em (2 ∈ Rule.freq dice ∧ 3 ∈ Rule.freq dice) with h | h
    · rw [if_pos h]
      simp only [mem_freq] at h
      exact iff_of_true rfl ⟨h.1, h.2⟩
    · rw [if_neg h]
      simp only [mem_freq] at h
      exact iff_of_false (by decide) h
  · simp only [fullHouse]
    rw [he]
    split
    · exact Or.inl rfl
    · exact Or.inr rfl

/-- C7: `smallStraight` scores 30 exactly when the distinct values of the
hand contain 2,3,4 together with 1 or 5, or contain 3,4,5 together with
2 or 6, and 0 otherwise. -/
theorem smallStraight_spec {dice : Hand} (hv : ValidHand dice) :
    (smallStraight dice = 30 ↔
      ((2:Int) ∈ dice ∧ (3:Int) ∈ dice ∧ (4:Int) ∈ dice ∧ ((1:Int) ∈ dice ∨ (5:Int) ∈ dice)) ∨
      ((3:Int) ∈ dice ∧ (4:Int) ∈ dice ∧ (5:Int) ∈ dice ∧ ((2:Int) ∈ dice ∨ (6:Int) ∈ dice))) ∧
    (smallStraight dice = 30 ∨ smallStraight dice = 0) := by
  have he := smallStraight_eval 30 dice
  constructor
  · simp only [smallStraight]
    rw [he]
    rcases em ((2:Int) ∈ dice ∧ (3:Int) ∈ dice ∧ (4:Int) ∈ dice ∧
        ((1:Int) ∈ dice ∨ (5:Int) ∈ dice)) with h1 | h1
    · rw [if_pos h1]
      exact iff_of_true rfl (Or.inl h1)
    · rw [if_neg h1]
      rcases em ((3:Int) ∈ dice ∧ (4:Int) ∈ dice ∧ (5:Int) ∈ dice ∧
          ((2:Int) ∈ dice ∨ (6:Int) ∈ dice)) with h2 | h2
      · rw [if_pos h2]
        exact iff_of_true rfl (Or.inr h2)
      · rw [if_neg h2]
        refine iff_of_false (by decide) ?_
        rintro (hc | hc)
        · exact h1 hc
        · exact h2 hc
  · simp only [smallStraight]
    rw [he]
    split
    · exact Or.inl rfl
    split
    · exact Or.inl rfl
    · exact Or.inr rfl

/-- C8: `largeStraight` scores 40 exactly when the hand has 5 distinct
values and lacks 1 or lacks 6; equivalently exactly on the value sets
\x7b1,2,3,4,5\x7d and \x7b2,3,4,5,6\x7d; otherwise it scores 0. -/
theorem largeStraight_spec {dice : Hand} (hv : ValidHand dice) :
    (largeStraight dice = 40 ↔
      dice.toFinset.card = 5 ∧ ((1:Int) ∉ dice ∨ (6:Int) ∉ dice)) ∧
    (largeStraight dice = 40 ↔
      dice.toFinset = ({1, 2, 3, 4, 5} : Finset Int) ∨
      dice.toFinset = ({2, 3, 4, 5, 6} : Finset Int)) ∧
    (largeStraight dice = 40 ∨ largeStraight dice = 0) := by
  have he := largeStraight_eval 40 dice
  refine ⟨?_, largeStraight_char hv, ?_⟩
  · simp only [largeStraight]
    rw [he]
    rcases em (dice.toFinset.card = 5 ∧ ((1:Int) ∉ dice ∨ (6:Int) ∉ dice)) with h | h
    · rw [if_pos h]
      exact iff_of_true rfl h
    · rw [if_neg h]
      exact iff_of_false (by decide) h
  · simp only [largeStraight]
    rw [he]
    split
    · exact Or.inl rfl
    · exact Or.inr rfl

/-- C9: `yahtzee` scores 50 exactly when all five dice share one face value,
which on valid hands is also exactly when the frequency list is the single
entry [5]; otherwise it scores 0.  The first-entry check of the
implementation is therefore equivalent to inspecting the whole frequency
list. -/
theorem yahtzee_spec {dice : Hand} (hv : ValidHand dice) :
    (yahtzee dice = 50 ↔ ∃ v : Int, dice = List.replicate 5 v) ∧
    (yahtzee dice = 50 ↔ Rule.freq dice = [5]) ∧
    (yahtzee dice = 50 ∨ yahtzee dice = 0) :=
  ⟨yahtzee_replicate_iff hv.1, yahtzee_freq_singleton_iff hv.1, yahtzee_50_or_0 dice⟩

/-- C10: on valid hands, a nonzero large-straight score forces a nonzero
small-straight score: both straights of five consecutive values contain a
run of four consecutive values. -/
theorem largeStraight_implies_smallStraight {dice : Hand} (hv : ValidHand dice)
    (h : largeStraight dice ≠ 0) : smallStraight dice = 30 := by
  have h40 : largeStraight dice = 40 := by
    rcases em (dice.toFinset.card = 5 ∧ ((1:Int) ∉ dice ∨ (6:Int) ∉ dice)) with hc | hc
    · simp only [largeStraight]
      rw [largeStraight_eval, if_pos hc]
    · exfalso
      apply h
      simp only [largeStraight]
      rw [largeStraight_eval, if_neg hc]
  rcases (largeStraight_char hv).1 h40 with hfin | hfin
  · have h2 : (2:Int) ∈ dice := List.mem_toFinset.1 (by rw [hfin]; decide)
    have h3 : (3:Int) ∈ dice := List.mem_toFinset.1 (by rw [hfin]; decide)
    have h4 : (4:Int) ∈ dice := List.mem_toFinset.1 (by rw [hfin]; decide)
    have h5 : (5:Int) ∈ dice := List.mem_toFinset.1 (by rw [hfin]; decide)
    simp only [smallStraight]
    rw [smallStraight_eval, if_pos ⟨h2, h3, h4, Or.inr h5⟩]
  · have h2 : (2:Int) ∈ dice := List.mem_toFinset.1 (by rw [hfin]; decide)
    have h3 : (3:Int) ∈ dice := List.mem_toFinset.1 (by rw [hfin]; decide)
    have h4 : (4:Int) ∈ dice := List.mem_toFinset.1 (by rw [hfin]; decide)
    have h5 : (5:Int) ∈ dice := List.mem_toFinset.1 (by rw [hfin]; decide)
    simp only [smallStraight]
    rw [smallStraight_eval, if_pos ⟨h2, h3, h4, Or.inr h5⟩]

end YahtzeeRules

namespace YahtzeeRules

/-! Nonnegativity and permutation invariance of each flat-score strategy. -/

theorem fullHouse_nonneg {s : Int} (h : 0 ≤ s) (dice : Hand) :
    0 ≤ FullHouse.evalRoll s dice := by
  rw [fullHouse_eval]
  split
  · exact h
  · exact le_refl 0

theorem smallStraight_nonneg {s : Int} (h : 0 ≤ s) (dice : Hand) :
    0 ≤ SmallStraight.evalRoll s dice := by
  rw [smallStraight_eval]
  split
  · exact h
  split
  · exact h
  · exact le_refl 0

theorem largeStraight_nonneg {s : Int} (h : 0 ≤ s) (dice : Hand) :
    0 ≤ LargeStraight.evalRoll s dice := by
  rw [largeStraight_eval]
  split
  · exact h
  · exact le_refl 0

theorem yahtzee_nonneg {s : Int} (h : 0 ≤ s) (dice : Hand) :
    0 ≤ Yahtzee.evalRoll s dice := by
  rw [Yahtzee.evalRoll]
  split
  · exact h
  · exact le_refl 0

theorem fullHouse_perm (s : Int) {l₁ l₂ : Hand} (h : l₁.Perm l₂) :
    FullHouse.evalRoll s l₁ = FullHouse.evalRoll s l₂ := by
  rw [fullHouse_eval, fullHouse_eval]
  have hm := freq_perm h
  have hiff : (2 ∈ Rule.freq l₁ ∧ 3 ∈ Rule.freq l₁) ↔
      (2 ∈ Rule.freq l₂ ∧ 3 ∈ Rule.freq l₂) := by
    constructor <;> rintro ⟨ha, hb⟩
    · exact ⟨hm.mem_iff.1 ha, hm.mem_iff.1 hb⟩
    · exact ⟨hm.mem_iff.2 ha, hm.mem_iff.2 hb⟩
  rw [if_congr hiff rfl rfl]

theorem smallStraight_perm (s : Int) {l₁ l₂ : Hand} (h : l₁.Perm l₂) :
    SmallStraight.evalRoll s l₁ = SmallStraight.evalRoll s l₂ := by
  rw [smallStraight_eval, smallStraight_eval]
  simp only [h.mem_iff]

theorem largeStraight_perm (s : Int) {l₁ l₂ : Hand} (h : l₁.Perm l₂) :
    LargeStraight.evalRoll s l₁ = LargeStraight.evalRoll s l₂ := by
  rw [largeStraight_eval, largeStraight_eval]
  have htf : l₁.toFinset = l₂.toFinset := by
    apply Finset.ext
    intro a
    rw [List.mem_toFinset, List.mem_toFinset, h.mem_iff]
  simp only [h.mem_iff, htf]

theorem yahtzee_perm {l₁ l₂ : Hand} (h5 : l₁.length = 5) (h : l₁.Perm l₂) :
    yahtzee l₁ = yahtzee l₂ := by
  have h5₂ : l₂.length = 5 := h.length_eq ▸ h5
  rcases em (∃ v : Int, l₁ = List.replicate 5 v) with ⟨v, hrep⟩ | hno
  · have h2 : l₂ = List.replicate 5 v := List.perm_replicate.1 (hrep ▸ h.symm)
    rw [(yahtzee_replicate_iff h5).2 ⟨v, hrep⟩, (yahtzee_replicate_iff h5₂).2 ⟨v, h2⟩]
  · have hno₂ : ¬∃ v : Int, l₂ = List.replicate 5 v := by
      rintro ⟨v, hrep⟩
      exact hno ⟨v, List.perm_replicate.1 (hrep ▸ h)⟩
    have z1 : yahtzee l₁ = 0 :=
      (yahtzee_50_or_0 l₁).resolve_left fun hc => hno ((yahtzee_replicate_iff h5).1 hc)
    have z2 : yahtzee l₂ = 0 :=
      (yahtzee_50_or_0 l₂).resolve_left fun hc => hno₂ ((yahtzee_replicate_iff h5₂).1 hc)
    rw [z1, z2]

/-- C1: every rule of the catalog, evaluated on any valid hand, is defined
(returns a value rather than throwing) and the value is a non-negative
integer. -/
theorem catalog_total_nonneg :
    ∀ f ∈ catalog, ∀ dice : Hand, ValidHand dice → ∃ n : Int, f dice = some n ∧ 0 ≤ n := by
  intro f hf dice hv
  simp only [catalog, List.mem_cons, List.not_mem_nil, or_false] at hf
  rcases hf with rfl | rfl | rfl | rfl | rfl | rfl | rfl | rfl | rfl | rfl | rfl | rfl | rfl
  · exact ⟨ones dice, rfl, totalOneNumber_nonneg (by decide) dice⟩
  · exact ⟨twos dice, rfl, totalOneNumber_nonneg (by decide) dice⟩
  · exact ⟨threes dice, rfl, totalOneNumber_nonneg (by decide) dice⟩
  · exact ⟨fours dice, rfl, totalOneNumber_nonneg (by decide) dice⟩
  · exact ⟨fives dice, rfl, totalOneNumber_nonneg (by decide) dice⟩
  · exact ⟨sixes dice, rfl, totalOneNumber_nonneg (by decide) dice⟩
  · exact sumDistro_total hv
  · exact sumDistro_total hv
  · exact ⟨fullHouse dice, rfl, fullHouse_nonneg (by decide) dice⟩
  · exact ⟨smallStraight dice, rfl, smallStraight_nonneg (by decide) dice⟩
  · exact ⟨largeStraight dice, rfl, largeStraight_nonneg (by decide) dice⟩
  · exact ⟨yahtzee dice, rfl, yahtzee_nonneg (by decide) dice⟩
  · exact sumDistro_total hv

/-- C2: every rule of the catalog is invariant under permutation of a valid
hand, including `yahtzee`, whose first-frequency-entry check is
order-independent on 5-dice hands. -/
theorem catalog_perm_invariant :
    ∀ f ∈ catalog, ∀ d₁ d₂ : Hand, ValidHand d₁ → d₁.Perm d₂ → f d₁ = f d₂ := by
  intro f hf d₁ d₂ hv hp
  have hne : d₁ ≠ [] := valid_ne_nil hv
  simp only [catalog, List.mem_cons, List.not_mem_nil, or_false] at hf
  rcases hf with rfl | rfl | rfl | rfl | rfl | rfl | rfl | rfl | rfl | rfl | rfl | rfl | rfl
  · exact congrArg some (totalOneNumber_perm 1 hp)
  · exact congrArg some (totalOneNumber_perm 2 hp)
  · exact congrArg some (totalOneNumber_perm 3 hp)
  · exact congrArg some (totalOneNumber_perm 4 hp)
  · exact congrArg some (totalOneNumber_perm 5 hp)
  · exact congrArg some (totalOneNumber_perm 6 hp)
  · exact sumDistro_perm 3 hp hne
  · exact sumDistro_perm 4 hp hne
  · exact congrArg some (fullHouse_perm 25 hp)
  · exact congrArg some (smallStraight_perm 30 hp)
  · exact congrArg some (largeStraight_perm 40 hp)
  · exact congrArg some (yahtzee_perm hv.1 hp)
  · exact sumDistro_perm 0 hp hne

end YahtzeeRules

namespace YahtzeeRules

/-- Concrete instance of C1: the `threeOfKind` rule on the hand
[2,2,2,5,6] returns a defined, non-negative score. -/
theorem catalog_total_nonneg_witness :
    ∃ n : Int, threeOfKind [2, 2, 2, 5, 6] = some n ∧ 0 ≤ n :=
  catalog_total_nonneg threeOfKind (by simp [catalog]) [2, 2, 2, 5, 6] (by decide)

/-- Concrete instance of C2: the `yahtzee` rule gives the same score on
[2,1,1,1,1] and its permutation [1,1,1,2,1]. -/
theorem catalog_perm_invariant_witness :
    asRule yahtzee [2, 1, 1, 1, 1] = asRule yahtzee [1, 1, 1, 2, 1] :=
  catalog_perm_invariant (asRule yahtzee) (by simp [catalog]) [2, 1, 1, 1, 1]
    [1, 1, 1, 2, 1] (by decide) (by decide)

/-- Concrete instance of C3 at the hand [2,2,3,3,3]. -/
theorem perFace_spec_witness :
    (ones [2, 2, 3, 3, 3] = 1 * ([2, 2, 3, 3, 3] : Hand).count 1 ∧
     twos [2, 2, 3, 3, 3] = 2 * ([2, 2, 3, 3, 3] : Hand).count 2 ∧
     threes [2, 2, 3, 3, 3] = 3 * ([2, 2, 3, 3, 3] : Hand).count 3 ∧
     fours [2, 2, 3, 3, 3] = 4 * ([2, 2, 3, 3, 3] : Hand).count 4 ∧
     fives [2, 2, 3, 3, 3] = 5 * ([2, 2, 3, 3, 3] : Hand).count 5 ∧
     sixes [2, 2, 3, 3, 3] = 6 * ([2, 2, 3, 3, 3] : Hand).count 6) ∧
    (((1:Int) ∉ ([2, 2, 3, 3, 3] : Hand) → ones [2, 2, 3, 3, 3] = 0) ∧
     ((2:Int) ∉ ([2, 2, 3, 3, 3] : Hand) → twos [2, 2, 3, 3, 3] = 0) ∧
     ((3:Int) ∉ ([2, 2, 3, 3, 3] : Hand) → threes [2, 2, 3, 3, 3] = 0) ∧
     ((4:Int) ∉ ([2, 2, 3, 3, 3] : Hand) → fours [2, 2, 3, 3, 3] = 0) ∧
     ((5:Int) ∉ ([2, 2, 3, 3, 3] : Hand) → fives [2, 2, 3, 3, 3] = 0) ∧
     ((6:Int) ∉ ([2, 2, 3, 3, 3] : Hand) → sixes [2, 2, 3, 3, 3] = 0)) :=
  perFace_spec (by decide)

/-- Concrete instance of C4 at the hand [2,2,2,5,6]. -/
theorem threeFourOfKind_spec_witness :
    ((∃ v ∈ ([2, 2, 2, 5, 6] : Hand), 3 ≤ ([2, 2, 2, 5, 6] : Hand).count v) →
      threeOfKind [2, 2, 2, 5, 6] = some ([2, 2, 2, 5, 6] : Hand).sum) ∧
    (¬(∃ v ∈ ([2, 2, 2, 5, 6] : Hand), 3 ≤ ([2, 2, 2, 5, 6] : Hand).count v) →
      threeOfKind [2, 2, 2, 5, 6] = some 0) ∧
    ((∃ v ∈ ([2, 2, 2, 5, 6] : Hand), 4 ≤ ([2, 2, 2, 5, 6] : Hand).count v) →
      fourOfKind [2, 2, 2, 5, 6] = some ([2, 2, 2, 5, 6] : Hand).sum) ∧
    (¬(∃ v ∈ ([2, 2, 2, 5, 6] : Hand), 4 ≤ ([2, 2, 2, 5, 6] : Hand).count v) →
      fourOfKind [2, 2, 2, 5, 6] = some 0) :=
  threeFourOfKind_spec (by decide)

/-- Concrete instance of C5 at the hand [1,2,3,4,5]. -/
theorem chance_spec_witness :
    chance [1, 2, 3, 4, 5] = some ([1, 2, 3, 4, 5] : Hand).sum :=
  chance_spec (by decide)

/-- Concrete instance of C6 at the hand [2,2,3,3,3]. -/
theorem fullHouse_spec_witness :
    (fullHouse [2, 2, 3, 3, 3] = 25 ↔
      (∃ v ∈ ([2, 2, 3, 3, 3] : Hand), ([2, 2, 3, 3, 3] : Hand).count v = 2) ∧
      (∃ w ∈ ([2, 2, 3, 3, 3] : Hand), ([2, 2, 3, 3, 3] : Hand).count w = 3)) ∧
    (fullHouse [2, 2, 3, 3, 3] = 25 ∨ fullHouse [2, 2, 3, 3, 3] = 0) ∧
    fullHouse [1, 1, 1, 1, 2] = 0 :=
  fullHouse_spec (by decide)

/-- Concrete instance of C7 at the hand [1,2,3,4,6]. -/
theorem smallStraight_spec_witness :
    (smallStraight [1, 2, 3, 4, 6] = 30 ↔
      ((2:Int) ∈ ([1, 2, 3, 4, 6] : Hand) ∧ (3:Int) ∈ ([1, 2, 3, 4, 6] : Hand) ∧
        (4:Int) ∈ ([1, 2, 3, 4, 6] : Hand) ∧
        ((1:Int) ∈ ([1, 2, 3, 4, 6] : Hand) ∨ (5:Int) ∈ ([1, 2, 3, 4, 6] : Hand))) ∨
      ((3:Int) ∈ ([1, 2, 3, 4, 6] : Hand) ∧ (4:Int) ∈ ([1, 2, 3, 4, 6] : Hand) ∧
        (5:Int) ∈ ([1, 2, 3, 4, 6] : Hand) ∧
        ((2:Int) ∈ ([1, 2, 3, 4, 6] : Hand) ∨ (6:Int) ∈ ([1, 2, 3, 4, 6] : Hand)))) ∧
    (smallStraight [1, 2, 3, 4, 6] = 30 ∨ smallStraight [1, 2, 3, 4, 6] = 0) :=
  smallStraight_spec (by decide)

/-- Concrete instance of C8 at the hand [2,3,4,5,6]. -/
theorem largeStraight_spec_witness :
    (largeStraight [2, 3, 4, 5, 6] = 40 ↔
      ([2, 3, 4, 5, 6] : Hand).toFinset.card = 5 ∧
      ((1:Int) ∉ ([2, 3, 4, 5, 6] : Hand) ∨ (6:Int) ∉ ([2, 3, 4, 5, 6] : Hand))) ∧
    (largeStraight [2, 3, 4, 5, 6] = 40 ↔
      ([2, 3, 4, 5, 6] : Hand).toFinset = ({1, 2, 3, 4, 5} : Finset Int) ∨
      ([2, 3, 4, 5, 6] : Hand).toFinset = ({2, 3, 4, 5, 6} : Finset Int)) ∧
    (largeStraight [2, 3, 4, 5, 6] = 40 ∨ largeStraight [2, 3, 4, 5, 6] = 0) :=
  largeStraight_spec (by decide)

/-- Concrete instance of C9 at the hand [4,4,4,4,4]. -/
theorem yahtzee_spec_witness :
    (yahtzee [4, 4, 4, 4, 4] = 50 ↔ ∃ v : Int, ([4, 4, 4, 4, 4] : Hand) = List.replicate 5 v) ∧
    (yahtzee [4, 4, 4, 4, 4] = 50 ↔ Rule.freq [4, 4, 4, 4, 4] = [5]) ∧
    (yahtzee [4, 4, 4, 4, 4] = 50 ∨ yahtzee [4, 4, 4, 4, 4] = 0) :=
  yahtzee_spec (by decide)

/-- Concrete instance of C10 at the hand [1,2,3,4,5]. -/
theorem largeStraight_implies_smallStraight_witness :
    smallStraight [1, 2, 3, 4, 5] = 30 :=
  largeStraight_implies_smallStraight (by decide) (by decide)

end YahtzeeRules
